import Mathlib

/-!
Verification development for the accessibility-simulator pipeline in `src/App.tsx`.

The detection loop, announcement routing, caption buffers, the ASR
(transcription) pipeline and the screen-reader narration chain are embedded
as pure Lean functions.  JavaScript `Set<string>` values are modelled as
insertion-ordered duplicate-free lists; asynchronous callbacks are modelled as
explicit continuations over a state record, with guard flags captured by value
exactly where the source closures capture them.
-/

/-- Hearing mode (`type HearingMode = 'normal' | 'mute'` in `App.tsx`). -/
inductive HearingMode
  | normal
  | mute
deriving DecidableEq

/-- One detector prediction: the class label plus an abstract confidence score
(the score's numeric value never influences the verified control flow). -/
structure Prediction where
  cls : String
  score : Nat
deriving DecidableEq

/-- JavaScript `Set<string>`: an insertion-ordered list that never holds
duplicates (`add` is a no-op on a present element). -/
abbrev JSet := List String

/-- `Set.prototype.has`. -/
def jsetHas (s : JSet) (x : String) : Bool :=
  decide (x ∈ s)

/-- `Set.prototype.add`: appends unless already present, keeping insertion
order and freedom from duplicates. -/
def jsetAdd (s : JSet) (x : String) : JSet :=
  if x ∈ s then s else s ++ [x]

/-- `Set.prototype.delete`: a JS set holds at most one occurrence, so deleting
the sole occurrence equals dropping every occurrence. -/
def jsetDelete (s : JSet) (x : String) : JSet :=
  s.filter (fun y => decide (y ≠ x))

/-- `new Set(array)`: first-occurrence deduplication in array order. -/
def jsetOfList (l : List String) : JSet :=
  l.foldl jsetAdd []

/-- Observable effects emitted while one detection cycle runs (speech-engine
calls, caption pushes, canvas drawing, frame scheduling). -/
inductive Ev
  | speechCancel
  | speechSpeak (text : String)
  | captionPush (text : String)
  | canvasClear
  | drawBox (cls : String)
  | scheduleNext
deriving DecidableEq

/-- Component state touched by the detection loop in `App.tsx`:
`isDetectionActive`/`isDetectionRunningRef`, `previousObjectsRef`,
`spokenOnceRef`, `detectedObjects`, `detCaptions`. -/
structure AppState where
  isDetectionActive : Bool
  isDetectionRunning : Bool
  previousObjects : JSet
  spokenOnce : JSet
  detectedObjects : List (String × Nat)
  detCaptions : List String
deriving DecidableEq

/-- Speech-engine and caption effects of `speakDet` (lines 158-166): when the
hearing mode is not `mute`, cancel whatever plays and submit the new utterance
(`engineOk = false` models `speechSynthesis.speak` throwing; the source
swallows the exception with `try/catch`); the caption push always follows. -/
def speakDetEvs (hearing : HearingMode) (engineOk : Bool) (text : String) : List Ev :=
  (if hearing ≠ HearingMode.mute then
    Ev.speechCancel :: (if engineOk then [Ev.speechSpeak text] else [])
  else []) ++ [Ev.captionPush text]

/-- `speakDet` (lines 158-166): returns the updated `detCaptions`
(`[text, ...prev].slice(0, 6)`) together with the emitted effects. -/
def speakDet (hearing : HearingMode) (engineOk : Bool) (text : String)
    (detCaptions : List String) : List String × List Ev :=
  ((text :: detCaptions).take 6, speakDetEvs hearing engineOk text)

/-- Entering classes (line 184): classes of the current presence set absent
from the previous one, in current-set insertion order. -/
def newOnesOf (previous present : JSet) : List String :=
  present.filter (fun c => !(jsetHas previous c))

/-- Exiting classes (lines 190-191): classes of the previous presence set
absent from the current one. -/
def goneOf (previous present : JSet) : List String :=
  previous.filter (fun c => !(jsetHas present c))

/-- Current presence set (line 182): `new Set(predictions.map(p => p.class))`. -/
def presentOf (predictions : List Prediction) : JSet :=
  jsetOfList (predictions.map Prediction.cls)

/-- Loop body of `newOnes.forEach` (line 188): for each entering class, add it
to `spokenOnceRef` and call `speakDet` with the text `Detected {class}`. -/
def announceLoop (hearing : HearingMode) (engineOk : Bool) :
    List String → JSet → List String → JSet × List String × List Ev
  | [], spoken, caps => (spoken, caps, [])
  | c :: rest, spoken, caps =>
    let sd := speakDet hearing engineOk ("Detected " ++ c) caps
    let r := announceLoop hearing engineOk rest (jsetAdd spoken c) sd.1
    (r.1, r.2.1, sd.2 ++ r.2.2)

/-- Body of one successful detection cycle (lines 182-214 of `detectObjects`),
run after the post-await staleness guard has passed. -/
def detectCycle (hearing : HearingMode) (engineOk : Bool) (st : AppState)
    (predictions : List Prediction) : AppState × List Ev :=
  let present := presentOf predictions
  let newOnes := newOnesOf st.previousObjects present
  let detected := predictions.map (fun p => (p.cls, p.score))
  let ann := announceLoop hearing engineOk newOnes st.spokenOnce st.detCaptions
  let gone := goneOf st.previousObjects present
  let spoken2 := gone.foldl jsetDelete ann.1
  let renderEvs := Ev.canvasClear :: predictions.map (fun p => Ev.drawBox p.cls)
  let schedEvs := if st.isDetectionRunning then [Ev.scheduleNext] else []
  ({ st with previousObjects := present, spokenOnce := spoken2,
             detectedObjects := detected, detCaptions := ann.2.1 },
   ann.2.2 ++ renderEvs ++ schedEvs)

/-- `stopDetection` (lines 145-156): stop the loop, cancel speech, clear the
detected-objects list, both tracking sets, the detection captions and the
canvas. -/
def stopDetection (st : AppState) : AppState × List Ev :=
  ({ st with isDetectionRunning := false,
             detectedObjects := [], previousObjects := [], spokenOnce := [],
             detCaptions := [] },
   [Ev.speechCancel, Ev.canvasClear])

/-- Continuation of `detectObjects` after `await model.detect` resolves:
on success the line-180 staleness guard discards the result when the running
flag has been cleared, otherwise the cycle body runs; on a detector exception
the `catch` block (lines 215-219) turns detection off and calls
`stopDetection`. -/
def detectContinuation (hearing : HearingMode) (engineOk : Bool) (st : AppState)
    (result : Except Unit (List Prediction)) : AppState × List Ev :=
  match result with
  | Except.ok predictions =>
    if st.isDetectionRunning then detectCycle hearing engineOk st predictions
    else (st, [])
  | Except.error _ =>
    stopDetection { st with isDetectionActive := false }

/-- Run one successful detection cycle per frame, collecting each cycle's
effect trace. -/
def runCycles (hearing : HearingMode) (engineOk : Bool) (st : AppState) :
    List (List Prediction) → AppState × List (List Ev)
  | [] => (st, [])
  | f :: fs =>
    let p := detectContinuation hearing engineOk st (Except.ok f)
    let r := runCycles hearing engineOk p.1 fs
    (r.1, p.2 :: r.2)

/-- State right after detection is toggled on: the effect at lines 222-230 sets
the running flag and all tracking state starts empty. -/
def initState : AppState :=
  { isDetectionActive := true, isDetectionRunning := true,
    previousObjects := [], spokenOnce := [], detectedObjects := [],
    detCaptions := [] }

/-- Per-cycle effect traces of a full run started from `initState`. -/
def framesTrace (hearing : HearingMode) (engineOk : Bool)
    (frames : List (List Prediction)) : List (List Ev) :=
  (runCycles hearing engineOk initState frames).2

/-- The announcement `Detected {c}` reaches the caption buffer during cycle `t`
of the run on `frames`. -/
def announcedAt (hearing : HearingMode) (engineOk : Bool)
    (frames : List (List Prediction)) (c : String) (t : Nat) : Prop :=
  Ev.captionPush ("Detected " ++ c) ∈ (framesTrace hearing engineOk frames).getD t []

/-- Presence set seen as `previousObjectsRef` at the start of cycle `t`, for a
run whose first cycle starts from `base`. -/
def prevPresenceAt (base : JSet) (frames : List (List Prediction)) (t : Nat) : JSet :=
  if t = 0 then base else presentOf (frames.getD (t - 1) [])

/-- Speech/caption effects of announcing a list of entering classes, in order. -/
def announceEvsOf (hearing : HearingMode) (engineOk : Bool) : List String → List Ev
  | [] => []
  | c :: rest =>
    speakDetEvs hearing engineOk ("Detected " ++ c) ++ announceEvsOf hearing engineOk rest

/-- Effect trace of one cycle as a function of the incoming presence set
(the trace does not depend on `spokenOnce` or on the caption history). -/
def cycleTrace (hearing : HearingMode) (engineOk : Bool) (previous : JSet)
    (predictions : List Prediction) : List Ev :=
  announceEvsOf hearing engineOk (newOnesOf previous (presentOf predictions)) ++
    (Ev.canvasClear :: predictions.map (fun p => Ev.drawBox p.cls)) ++
    [Ev.scheduleNext]

/-- The browser speech engine's utterance queue; the head is the utterance
currently playing. -/
abbrev SpeechEngine := List String

/-- Effect of one emitted event on the speech engine: `cancel` flushes the
queue, `speak` enqueues; everything else leaves the engine alone. -/
def applyEv (e : SpeechEngine) : Ev → SpeechEngine
  | Ev.speechCancel => []
  | Ev.speechSpeak t => e ++ [t]
  | _ => e

/-- Fold a whole effect trace over the speech engine. -/
def applyEvs (e : SpeechEngine) (evs : List Ev) : SpeechEngine :=
  evs.foldl applyEv e

/-- Effect trace of a sequence of detection-announcement submissions (each one
is `speakDet` with speech enabled). -/
def detSubmissionTrace : List String → List Ev
  | [] => []
  | t :: ts => speakDetEvs HearingMode.normal true t ++ detSubmissionTrace ts

/-- One transcript fragment of a recognition result event (`e.results[i]`),
carrying its first alternative's text and the `isFinal` flag. -/
structure AsrFragment where
  transcript : String
  isFinal : Bool
deriving DecidableEq

/-- State owned by the ASR pipeline in `App.tsx`: `recognitionRef` (is a
session object installed), `asrRestartRef`, `lastAsrTextRef`,
`asrDebounceRef` together with the text its timer would emit, and
`hearingCaptions`. -/
structure AsrPipeline where
  recognition : Bool
  asrRestart : Bool
  lastAsrText : String
  pending : Option String
  hearingCaptions : List String
deriving DecidableEq

/-- Character class kept by the line-84 replacement
`clean.replace(/[^A-Za-z0-9 .,!?']/g, '')`. -/
def asrAllowed (c : Char) : Bool :=
  c.isAlpha || c.isDigit || c = ' ' || c = '.' || c = ',' || c = '!' || c = '?' ||
    c = Char.ofNat 39

/-- The line-84 character filter itself. -/
def asrClean (s : String) : String :=
  String.mk (s.data.filter asrAllowed)

/-- JavaScript `String.prototype.trim()`: drop leading and trailing
whitespace. -/
def jsTrim (s : String) : String :=
  String.mk (((s.data.dropWhile Char.isWhitespace).reverse.dropWhile
    Char.isWhitespace).reverse)

/-- Normalized text of a recognition event: concatenate the final fragments,
trim, strip disallowed characters. -/
def normalizedOf (frags : List AsrFragment) : String :=
  asrClean (jsTrim (String.join ((frags.filter (fun f => f.isFinal)).map
    (fun f => f.transcript))))

/-- `rec.onresult` (lines 77-92): concatenate the final fragments, trim,
discard if empty, strip disallowed characters, discard if empty again or equal
to `lastAsrTextRef`, otherwise record the text and (re)arm the 80 ms debounce
timer with it. -/
def asrOnResult (st : AsrPipeline) (frags : List AsrFragment) : AsrPipeline :=
  let finalText := String.join ((frags.filter (fun f => f.isFinal)).map
    (fun f => f.transcript))
  let clean0 := jsTrim finalText
  if clean0 = "" then st
  else
    let clean := asrClean clean0
    if clean = "" then st
    else if clean = st.lastAsrText then st
    else { st with lastAsrText := clean, pending := some clean }

/-- The armed debounce timer fires (line 89-91): prepend the recorded text to
`hearingCaptions`, keeping the six newest lines. -/
def asrFire (st : AsrPipeline) : AsrPipeline :=
  match st.pending with
  | none => st
  | some t =>
    { st with hearingCaptions := (t :: st.hearingCaptions).take 6, pending := none }

/-- `startASR` (lines 69-100): with no recognition API available, or a session
already installed, do nothing; otherwise install a session and raise the
restart flag. -/
def startASR (srAvailable : Bool) (st : AsrPipeline) : AsrPipeline :=
  if srAvailable = false then st
  else if st.recognition then st
  else { st with recognition := true, asrRestart := true }

/-- `rec.onend` (lines 93-96): drop the session object and, when the restart
flag is up, immediately call `startASR` again. -/
def asrOnEnd (srAvailable : Bool) (st : AsrPipeline) : AsrPipeline :=
  let st1 := { st with recognition := false }
  if st1.asrRestart then startASR srAvailable st1 else st1

/-- Hearing effect, `hearing === 'normal'` branch (lines 102-111): clear the
restart flag, stop and drop any session, clear the transcription captions, and
reset dedup text and debounce timer. -/
def hearingToNormal (st : AsrPipeline) : AsrPipeline :=
  { st with recognition := false, asrRestart := false, hearingCaptions := [],
            lastAsrText := "", pending := none }

/-- Events driving the ASR pipeline: a recognition result arriving, or the
pending debounce timer firing. -/
inductive AsrAction
  | result (frags : List AsrFragment)
  | fire
deriving DecidableEq

/-- One ASR pipeline step. -/
def asrStep (st : AsrPipeline) : AsrAction → AsrPipeline
  | AsrAction.result frags => asrOnResult st frags
  | AsrAction.fire => asrFire st

/-- Run the ASR pipeline over a sequence of actions. -/
def asrRun (st : AsrPipeline) (acts : List AsrAction) : AsrPipeline :=
  acts.foldl asrStep st

/-- ASR pipeline state right after `startASR` first succeeds. -/
def asrInit : AsrPipeline :=
  { recognition := true, asrRestart := true, lastAsrText := "", pending := none,
    hearingCaptions := [] }

/-- Modelled from the spec: `TranscriptState` whose exact-match dedup compares
against "the immediately previous emitted text", i.e. the text of the most
recent caption emission — updated when the debounce timer fires, not when an
event is accepted.  This is the dedup reference the claim describes; the code
in `App.tsx` instead compares against `lastAsrTextRef`, which it updates at
acceptance time. -/
structure SpecAsrState where
  lastEmitted : String
  pending : Option String
  captions : List String
deriving DecidableEq

/-- Modelled from the spec: result handling with dedup against the last
emitted text; a passing event cancels and replaces the pending emission. -/
def specAsrOnResult (st : SpecAsrState) (frags : List AsrFragment) : SpecAsrState :=
  let n := normalizedOf frags
  if n = "" then st
  else if n = st.lastEmitted then st
  else { st with pending := some n }

/-- Modelled from the spec: the debounce timer fires, emitting the pending
text as a caption and recording it as the last emitted text. -/
def specAsrFire (st : SpecAsrState) : SpecAsrState :=
  match st.pending with
  | none => st
  | some t =>
    { lastEmitted := t, pending := none, captions := (t :: st.captions).take 6 }

/-- One step of the spec-described pipeline. -/
def specAsrStep (st : SpecAsrState) : AsrAction → SpecAsrState
  | AsrAction.result frags => specAsrOnResult st frags
  | AsrAction.fire => specAsrFire st

/-- Run the spec-described pipeline over a sequence of actions. -/
def specAsrRun (st : SpecAsrState) (acts : List AsrAction) : SpecAsrState :=
  acts.foldl specAsrStep st

/-- Spec-described pipeline's starting state. -/
def specAsrInit : SpecAsrState :=
  { lastEmitted := "", pending := none, captions := [] }

/-- Reader speed tiers (`type ReaderSpeed` in `App.tsx`). -/
inductive ReaderSpeed
  | slow
  | normal
  | fast
  | veryfast
deriving DecidableEq

/-- One row of the `speedProfile` table; the playback rate is kept in
hundredths to stay in `Nat` (0.9 → 90, 1.35 → 135). -/
structure SpeedProfile where
  rateHundredths : Nat
  pauseMs : Nat
deriving DecidableEq

/-- `speedProfile` (lines 320-327). -/
def speedProfile : ReaderSpeed → SpeedProfile
  | ReaderSpeed.slow => ⟨90, 380⟩
  | ReaderSpeed.normal => ⟨100, 250⟩
  | ReaderSpeed.fast => ⟨120, 140⟩
  | ReaderSpeed.veryfast => ⟨135, 80⟩

/-- Observable narration events: a speak call, or the inter-item pause the
completion callback schedules before the next one. -/
inductive NarrEv
  | speak (text : String)
  | pause (ms : Nat)
deriving DecidableEq

/-- The `speakFrom` chain (lines 377-406), unfolded along utterance
completions.  `capturedActive` is the value of `readerActive` captured by the
closures of the render that installed them: both the guard at line 378 and the
`onend` guard at line 402 read that captured value, not the live state.
`fuel` bounds the unfolding (looping narration is infinite). -/
def speakFromRun (fuel : Nat) (capturedActive loopRead : Bool) (pauseMs : Nat)
    (queue : List String) (index : Nat) : List NarrEv :=
  match fuel with
  | 0 => []
  | Nat.succ f =>
    if capturedActive = false || queue.isEmpty then []
    else if queue.length ≤ index && !loopRead then []
    else
      let nextIndex := if queue.length ≤ index then 0 else index
      NarrEv.speak (queue.getD nextIndex "") ::
        (if capturedActive then
          NarrEv.pause pauseMs ::
            speakFromRun f capturedActive loopRead pauseMs queue (nextIndex + 1)
        else [])

/-- `startReader` (lines 408-426) followed by the completion chain: speak item
0, then let the `onend` callback (guarded by the same captured `readerActive`)
hand over to `speakFrom 1`. -/
def startReaderRun (fuel : Nat) (capturedActive loopRead : Bool) (pauseMs : Nat)
    (queue : List String) : List NarrEv :=
  if queue.isEmpty then []
  else
    NarrEv.speak (queue.getD 0 "") ::
      (if capturedActive then
        NarrEv.pause pauseMs :: speakFromRun fuel capturedActive loopRead pauseMs queue 1
      else [])

/-- Decidable membership-extensional equality of two JS sets. -/
def sameMembers (a b : JSet) : Bool :=
  a.all (fun c => decide (c ∈ b)) && b.all (fun c => decide (c ∈ a))

/-- Strict precedence of event `a` over event `b` inside a trace: some
occurrence of `a` is followed, strictly later, by an occurrence of `b`. -/
def evBefore (a b : Ev) : List Ev → Bool
  | [] => false
  | e :: tr => (decide (e = a) && decide (b ∈ tr)) || evBefore a b tr

theorem sameMembers_iff {a b : JSet} : sameMembers a b = true ↔ ∀ c, c ∈ a ↔ c ∈ b := by
  simp only [sameMembers, Bool.and_eq_true, List.all_eq_true, decide_eq_true_eq]
  constructor
  · rintro ⟨h1, h2⟩ c
    exact ⟨fun hc => h1 c hc, fun hc => h2 c hc⟩
  · intro h
    exact ⟨fun c hc => (h c).1 hc, fun c hc => (h c).2 hc⟩

theorem evBefore_cons_self {a b : Ev} {l : List Ev} (h : b ∈ l) :
    evBefore a b (a :: l) = true := by
  simp [evBefore, h]

theorem evBefore_cons_of {a b e : Ev} {l : List Ev} (h : evBefore a b l = true) :
    evBefore a b (e :: l) = true := by
  simp [evBefore, h]

theorem evBefore_append_left {a b : Ev} {l₁ l₂ : List Ev}
    (h : evBefore a b l₁ = true) : evBefore a b (l₁ ++ l₂) = true := by
  induction l₁ with
  | nil => simp [evBefore] at h
  | cons e tr ih =>
    simp only [evBefore, Bool.or_eq_true, Bool.and_eq_true, decide_eq_true_eq] at h
    rcases h with ⟨he, hb⟩ | h
    · subst he
      simp only [List.cons_append]
      exact evBefore_cons_self (List.mem_append_left _ hb)
    · simp only [List.cons_append]
      exact evBefore_cons_of (ih h)

theorem evBefore_append_right {a b : Ev} {l₁ l₂ : List Ev}
    (h : evBefore a b l₂ = true) : evBefore a b (l₁ ++ l₂) = true := by
  induction l₁ with
  | nil => simpa using h
  | cons e tr ih =>
    simp only [List.cons_append]
    exact evBefore_cons_of ih

theorem mem_jsetAdd {s : JSet} {x c : String} : c ∈ jsetAdd s x ↔ c ∈ s ∨ c = x := by
  by_cases h : x ∈ s
  · simp only [jsetAdd, if_pos h]
    constructor
    · exact Or.inl
    · rintro (h1 | rfl)
      · exact h1
      · exact h
  · simp [jsetAdd, if_neg h]

theorem mem_foldl_jsetAdd {c : String} :
    ∀ (l : List String) (acc : JSet), c ∈ l.foldl jsetAdd acc ↔ c ∈ acc ∨ c ∈ l := by
  intro l
  induction l with
  | nil => simp
  | cons x rest ih =>
    intro acc
    simp [List.foldl_cons, ih, mem_jsetAdd, or_assoc]

theorem mem_jsetOfList {c : String} {l : List String} : c ∈ jsetOfList l ↔ c ∈ l := by
  simp [jsetOfList, mem_foldl_jsetAdd]

theorem nodup_jsetAdd {s : JSet} {x : String} (h : s.Nodup) : (jsetAdd s x).Nodup := by
  by_cases hx : x ∈ s
  · simpa [jsetAdd, hx] using h
  · simp only [jsetAdd, if_neg hx, List.nodup_append, List.nodup_cons,
      List.not_mem_nil, not_false_eq_true, List.nodup_nil, and_true, true_and]
    exact ⟨h, fun a ha => by
      simp only [List.mem_singleton]
      rintro rfl
      exact hx ha⟩

theorem nodup_jsetOfList (l : List String) : (jsetOfList l).Nodup := by
  have general : ∀ (l : List String) (acc : JSet), acc.Nodup → (l.foldl jsetAdd acc).Nodup := by
    intro l
    induction l with
    | nil => intro acc h; simpa using h
    | cons x rest ih =>
      intro acc h
      exact ih (jsetAdd acc x) (nodup_jsetAdd h)
  exact general l [] List.nodup_nil

theorem mem_jsetDelete {s : JSet} {x c : String} :
    c ∈ jsetDelete s x ↔ c ∈ s ∧ c ≠ x := by
  simp [jsetDelete, List.mem_filter]

theorem mem_foldl_jsetDelete {c : String} :
    ∀ (gone : List String) (s : JSet), c ∈ gone.foldl jsetDelete s ↔ c ∈ s ∧ c ∉ gone := by
  intro gone
  induction gone with
  | nil => simp
  | cons x rest ih =>
    intro s
    simp only [List.foldl_cons, ih, mem_jsetDelete, List.mem_cons]
    constructor
    · rintro ⟨⟨hs, hne⟩, hrest⟩
      exact ⟨hs, by simp [hne, hrest]⟩
    · rintro ⟨hs, hnot⟩
      push_neg at hnot
      exact ⟨⟨hs, hnot.1⟩, hnot.2⟩

theorem mem_newOnesOf {prev present : JSet} {c : String} :
    c ∈ newOnesOf prev present ↔ c ∈ present ∧ c ∉ prev := by
  simp [newOnesOf, List.mem_filter, jsetHas]

theorem mem_goneOf {prev present : JSet} {c : String} :
    c ∈ goneOf prev present ↔ c ∈ prev ∧ c ∉ present := by
  simp [goneOf, List.mem_filter, jsetHas]

theorem mem_presentOf {preds : List Prediction} {c : String} :
    c ∈ presentOf preds ↔ ∃ p ∈ preds, p.cls = c := by
  simp [presentOf, mem_jsetOfList, List.mem_map]

theorem nodup_newOnesOf {prev present : JSet} (h : present.Nodup) :
    (newOnesOf prev present).Nodup :=
  h.filter _

theorem detected_inj {a b : String} (h : "Detected " ++ a = "Detected " ++ b) :
    a = b := by
  have hd := congrArg String.data h
  simp only [String.data_append] at hd
  exact String.ext (List.append_cancel_left hd)

theorem announceLoop_spoken (h : HearingMode) (ok : Bool) :
    ∀ (cs : List String) (spoken : JSet) (caps : List String),
      (announceLoop h ok cs spoken caps).1 = cs.foldl jsetAdd spoken := by
  intro cs
  induction cs with
  | nil => intro spoken caps; rfl
  | cons c rest ih => intro spoken caps; simp [announceLoop, ih]

theorem announceLoop_evs (h : HearingMode) (ok : Bool) :
    ∀ (cs : List String) (spoken : JSet) (caps : List String),
      (announceLoop h ok cs spoken caps).2.2 = announceEvsOf h ok cs := by
  intro cs
  induction cs with
  | nil => intro spoken caps; rfl
  | cons c rest ih => intro spoken caps; simp [announceLoop, announceEvsOf, speakDet, ih]

theorem detectCycle_snd (h : HearingMode) (ok : Bool) (st : AppState)
    (preds : List Prediction) :
    (detectCycle h ok st preds).2 =
      announceEvsOf h ok (newOnesOf st.previousObjects (presentOf preds)) ++
        (Ev.canvasClear :: preds.map (fun p => Ev.drawBox p.cls)) ++
        (if st.isDetectionRunning then [Ev.scheduleNext] else []) := by
  simp [detectCycle, announceLoop_evs]

theorem detectCycle_prev (h : HearingMode) (ok : Bool) (st : AppState)
    (preds : List Prediction) :
    (detectCycle h ok st preds).1.previousObjects = presentOf preds := rfl

theorem detectCycle_running (h : HearingMode) (ok : Bool) (st : AppState)
    (preds : List Prediction) :
    (detectCycle h ok st preds).1.isDetectionRunning = st.isDetectionRunning := rfl

theorem detectCycle_spoken (h : HearingMode) (ok : Bool) (st : AppState)
    (preds : List Prediction) :
    (detectCycle h ok st preds).1.spokenOnce =
      (goneOf st.previousObjects (presentOf preds)).foldl jsetDelete
        ((newOnesOf st.previousObjects (presentOf preds)).foldl jsetAdd st.spokenOnce) := by
  simp [detectCycle, announceLoop_spoken]

theorem captionPush_mem_speakDetEvs {h : HearingMode} {ok : Bool} {t x : String} :
    Ev.captionPush x ∈ speakDetEvs h ok t ↔ x = t := by
  by_cases hm : h = HearingMode.mute <;> cases ok <;> simp [speakDetEvs, hm]

theorem captionPush_mem_announceEvsOf {h : HearingMode} {ok : Bool} {x : String} :
    ∀ {cs : List String},
      (Ev.captionPush x ∈ announceEvsOf h ok cs ↔ ∃ c ∈ cs, x = "Detected " ++ c) := by
  intro cs
  induction cs with
  | nil => simp [announceEvsOf]
  | cons c rest ih =>
    simp [announceEvsOf, captionPush_mem_speakDetEvs, ih]

theorem detectCycle_trace (h : HearingMode) (ok : Bool) (st : AppState)
    (preds : List Prediction) (hrun : st.isDetectionRunning = true) :
    (detectCycle h ok st preds).2 = cycleTrace h ok st.previousObjects preds := by
  rw [detectCycle_snd, cycleTrace, hrun]
  simp

theorem captionPush_mem_cycleTrace {h : HearingMode} {ok : Bool} {prev : JSet}
    {preds : List Prediction} {c : String} :
    Ev.captionPush ("Detected " ++ c) ∈ cycleTrace h ok prev preds ↔
      (c ∈ presentOf preds ∧ c ∉ prev) := by
  simp only [cycleTrace, List.mem_append, captionPush_mem_announceEvsOf]
  constructor
  · rintro ((⟨c', hc', he⟩ | hmem) | hmem)
    · rcases detected_inj he with rfl
      exact mem_newOnesOf.mp hc'
    · simp at hmem
    · simp at hmem
  · intro hc
    exact Or.inl (Or.inl ⟨c, mem_newOnesOf.mpr hc, rfl⟩)

theorem captionPush_count_speakDetEvs {h : HearingMode} {ok : Bool} {t x : String} :
    (speakDetEvs h ok t).count (Ev.captionPush x) = if x = t then 1 else 0 := by
  by_cases hm : h = HearingMode.mute <;> cases ok <;>
    by_cases hx : x = t <;> simp [speakDetEvs, hm, hx, List.count_cons]

theorem captionPush_count_announceEvsOf {h : HearingMode} {ok : Bool} {c : String} :
    ∀ {cs : List String}, cs.Nodup →
      (announceEvsOf h ok cs).count (Ev.captionPush ("Detected " ++ c)) =
        if c ∈ cs then 1 else 0 := by
  intro cs
  induction cs with
  | nil => simp [announceEvsOf]
  | cons d rest ih =>
    intro hnd
    rcases List.nodup_cons.mp hnd with ⟨hd, hrest⟩
    rw [announceEvsOf, List.count_append, captionPush_count_speakDetEvs, ih hrest]
    by_cases hcd : c = d
    · subst hcd
      simp [hd]
    · have : ("Detected " ++ c = "Detected " ++ d) ↔ False := by
        constructor
        · intro he; exact hcd (detected_inj he)
        · intro he; exact he.elim
      simp [this, hcd]

theorem captionPush_count_cycleTrace {h : HearingMode} {ok : Bool} {prev : JSet}
    {preds : List Prediction} {c : String} :
    (cycleTrace h ok prev preds).count (Ev.captionPush ("Detected " ++ c)) =
      if (c ∈ presentOf preds ∧ c ∉ prev) then 1 else 0 := by
  have hno : (newOnesOf prev (presentOf preds)).Nodup :=
    nodup_newOnesOf (nodup_jsetOfList _)
  rw [cycleTrace, List.count_append, List.count_append,
    captionPush_count_announceEvsOf hno]
  have h1 : (Ev.canvasClear :: preds.map (fun p => Ev.drawBox p.cls)).count
      (Ev.captionPush ("Detected " ++ c)) = 0 := by
    rw [List.count_eq_zero]
    simp
  have h2 : ([Ev.scheduleNext] : List Ev).count (Ev.captionPush ("Detected " ++ c)) = 0 := by
    rw [List.count_eq_zero]
    simp
  rw [h1, h2]
  by_cases hc : c ∈ presentOf preds ∧ c ∉ prev
  · simp [mem_newOnesOf, hc]
  · simp only [Nat.add_zero]
    rw [if_neg, if_neg hc]
    rw [mem_newOnesOf]
    exact hc

theorem runCycles_trace (h : HearingMode) (ok : Bool) :
    ∀ (frames : List (List Prediction)) (st : AppState) (t : Nat),
      st.isDetectionRunning = true → t < frames.length →
      (runCycles h ok st frames).2.getD t [] =
        cycleTrace h ok (prevPresenceAt st.previousObjects frames t) (frames.getD t []) := by
  intro frames
  induction frames with
  | nil => intro st t _ ht; simp at ht
  | cons f fs ih =>
    intro st t hrun ht
    have hcont : detectContinuation h ok st (Except.ok f) = detectCycle h ok st f := by
      simp [detectContinuation, hrun]
    cases t with
    | zero =>
      simp only [runCycles, hcont, List.getD_cons_zero, prevPresenceAt, if_pos rfl,
        List.getD_cons_zero]
      exact detectCycle_trace h ok st f hrun
    | succ u =>
      have h1 : (detectCycle h ok st f).1.isDetectionRunning = true := by
        rw [detectCycle_running]; exact hrun
      have hu : u < fs.length := by simpa using ht
      simp only [runCycles, hcont, List.getD_cons_succ]
      rw [ih _ u h1 hu]
      rw [detectCycle_prev]
      congr 1
      cases u with
      | zero => simp [prevPresenceAt]
      | succ v => simp [prevPresenceAt]

theorem evBefore_announceEvsOf {h : HearingMode} {c : String}
    (hm : h ≠ HearingMode.mute) :
    ∀ {cs : List String}, c ∈ cs →
      evBefore (Ev.speechSpeak ("Detected " ++ c)) (Ev.captionPush ("Detected " ++ c))
        (announceEvsOf h true cs) = true := by
  intro cs
  induction cs with
  | nil => intro hc; simp at hc
  | cons d rest ih =>
    intro hc
    rw [announceEvsOf]
    rcases List.mem_cons.mp hc with rfl | hc
    · have hsd : speakDetEvs h true ("Detected " ++ c) =
          [Ev.speechCancel, Ev.speechSpeak ("Detected " ++ c),
           Ev.captionPush ("Detected " ++ c)] := by
        simp [speakDetEvs, hm]
      rw [hsd]
      apply evBefore_append_left
      apply evBefore_cons_of
      apply evBefore_cons_self
      simp
    · exact evBefore_append_right (ih hc)

/-- C1: per cycle, `entered` is exactly the classes present now but absent
from the previous presence set, `exited` exactly those previously present but
now absent, both by set membership on class labels (duplicate instances of a
class collapse: the current presence set is duplicate-free); consequently
`entered ∩ previousPresenceSet = ∅` and `exited ⊆ previousPresenceSet`, and
after the diff the previous set is replaced wholesale by the current set. -/
theorem c1_presence_diff (h : HearingMode) (ok : Bool) (st : AppState)
    (preds : List Prediction) :
    (∀ c, c ∈ newOnesOf st.previousObjects (presentOf preds) ↔
      ((∃ p ∈ preds, p.cls = c) ∧ c ∉ st.previousObjects)) ∧
    (∀ c, c ∈ goneOf st.previousObjects (presentOf preds) ↔
      (c ∈ st.previousObjects ∧ ¬ ∃ p ∈ preds, p.cls = c)) ∧
    (∀ c, ¬ (c ∈ newOnesOf st.previousObjects (presentOf preds) ∧
      c ∈ st.previousObjects)) ∧
    (∀ c ∈ goneOf st.previousObjects (presentOf preds), c ∈ st.previousObjects) ∧
    (presentOf preds).Nodup ∧
    (detectCycle h ok st preds).1.previousObjects = presentOf preds := by
  refine ⟨?_, ?_, ?_, ?_, nodup_jsetOfList _, detectCycle_prev h ok st preds⟩
  · intro c
    rw [mem_newOnesOf, mem_presentOf]
  · intro c
    rw [mem_goneOf, mem_presentOf]
  · intro c hc
    exact (mem_newOnesOf.mp hc.1).2 hc.2
  · intro c hc
    exact (mem_goneOf.mp hc).1

/-- C2: during a run of consecutive cycles in which class `c` is continuously
present (cycles `a` through `b`, with `c` absent just before cycle `a`, or
`a` the very first cycle), the announcement `Detected c` is produced exactly
once in cycle `a` and in no later cycle of the run; a class that exits and
re-enters satisfies the same hypotheses at the re-entry cycle and so is
announced anew there. -/
theorem c2_one_announcement_per_run (h : HearingMode) (ok : Bool)
    (frames : List (List Prediction)) (c : String) (a b t : Nat)
    (hab : a ≤ b) (hb : b < frames.length)
    (hpres : ∀ u, a ≤ u → u ≤ b → c ∈ presentOf (frames.getD u []))
    (hstart : a = 0 ∨ c ∉ presentOf (frames.getD (a - 1) [])) :
    announcedAt h ok frames c a ∧
    ((framesTrace h ok frames).getD a []).count
      (Ev.captionPush ("Detected " ++ c)) = 1 ∧
    (a < t → t ≤ b → ¬ announcedAt h ok frames c t) := by
  have hrun : initState.isDetectionRunning = true := rfl
  have hta : a < frames.length := lt_of_le_of_lt hab hb
  have htrace := runCycles_trace h ok frames initState a hrun hta
  have hnotprev : c ∉ prevPresenceAt initState.previousObjects frames a := by
    rcases hstart with rfl | hstart
    · simp [prevPresenceAt, initState]
    · by_cases ha0 : a = 0
      · subst ha0
        simp [prevPresenceAt, initState]
      · simpa [prevPresenceAt, ha0] using hstart
  refine ⟨?_, ?_, ?_⟩
  · rw [announcedAt, framesTrace, htrace]
    exact captionPush_mem_cycleTrace.mpr ⟨hpres a le_rfl hab, hnotprev⟩
  · rw [framesTrace, htrace, captionPush_count_cycleTrace]
    rw [if_pos ⟨hpres a le_rfl hab, hnotprev⟩]
  · intro hat htb hann
    have htt : t < frames.length := lt_of_le_of_lt htb hb
    have htrace2 := runCycles_trace h ok frames initState t hrun htt
    rw [announcedAt, framesTrace, htrace2] at hann
    have hsplit := captionPush_mem_cycleTrace.mp hann
    have ht0 : t ≠ 0 := by omega
    have hin : c ∈ presentOf (frames.getD (t - 1) []) := by
      exact hpres (t - 1) (by omega) (by omega)
    have : c ∉ presentOf (frames.getD (t - 1) []) := by
      have := hsplit.2
      simpa [prevPresenceAt, ht0] using this
    exact this hin

/-- Witness for C2: the spec's own scenario — `chair` present in cycles 0 and
1 is announced in cycle 0 and not in cycle 1. -/
theorem c2_witness :
    announcedAt HearingMode.normal true [[⟨"chair", 80⟩], [⟨"chair", 80⟩]] "chair" 0 ∧
    ¬ announcedAt HearingMode.normal true [[⟨"chair", 80⟩], [⟨"chair", 80⟩]] "chair" 1 := by
  have h := c2_one_announcement_per_run HearingMode.normal true
    [[⟨"chair", 80⟩], [⟨"chair", 80⟩]] "chair" 0 1 1
    (by decide) (by decide)
    (by
      intro u h1 h2
      have hu : u = 0 ∨ u = 1 := by omega
      rcases hu with rfl | rfl <;> decide)
    (Or.inl rfl)
  exact ⟨h.1, h.2.2 (by decide) (by decide)⟩

/-- C3 counterexample: in the cycle where `person` enters (hearing `normal`,
speech engine healthy), the caption push does NOT precede the speech
submission — `speakDet` submits the utterance first and pushes the caption
after (lines 158-166). -/
theorem c3_counterexample :
    evBefore (Ev.captionPush "Detected person") (Ev.speechSpeak "Detected person")
      (detectCycle HearingMode.normal true initState [⟨"person", 80⟩]).2 = false := by
  decide

/-- C3 as amended: within one cycle, each entered class's announcement first
submits speech (when the hearing mode allows it and the engine accepts) and
then pushes the caption; the caption push happens unconditionally — for every
hearing mode and even when the speech engine throws on start (the exception is
swallowed). -/
theorem c3_caption_unconditional_speech_first (h : HearingMode) (ok : Bool)
    (st : AppState) (preds : List Prediction) (c : String)
    (hc : c ∈ newOnesOf st.previousObjects (presentOf preds)) :
    Ev.captionPush ("Detected " ++ c) ∈ (detectCycle h ok st preds).2 ∧
    (h ≠ HearingMode.mute → ok = true →
      evBefore (Ev.speechSpeak ("Detected " ++ c)) (Ev.captionPush ("Detected " ++ c))
        (detectCycle h ok st preds).2 = true) := by
  rw [detectCycle_snd]
  constructor
  · refine List.mem_append_left _ (List.mem_append_left _ ?_)
    exact captionPush_mem_announceEvsOf.mpr ⟨c, hc, rfl⟩
  · intro hm hok
    subst hok
    exact evBefore_append_left (evBefore_append_left (evBefore_announceEvsOf hm hc))

/-- Witness for the amended C3 at a concrete entering class. -/
theorem c3_amended_witness :
    Ev.captionPush ("Detected " ++ "person") ∈
      (detectCycle HearingMode.normal true initState [⟨"person", 80⟩]).2 ∧
    evBefore (Ev.speechSpeak ("Detected " ++ "person"))
      (Ev.captionPush ("Detected " ++ "person"))
      (detectCycle HearingMode.normal true initState [⟨"person", 80⟩]).2 = true := by
  have h := c3_caption_unconditional_speech_first HearingMode.normal true initState
    [⟨"person", 80⟩] "person" (by decide)
  exact ⟨h.1, h.2 (by decide) rfl⟩

theorem speech_at_most_one :
    ∀ (texts : List String) (e : SpeechEngine), e.length ≤ 1 →
      ∀ s ∈ List.scanl applyEv e (detSubmissionTrace texts), s.length ≤ 1 := by
  intro texts
  induction texts with
  | nil =>
    intro e hle s hs
    simp only [detSubmissionTrace, List.scanl, List.mem_singleton] at hs
    subst hs
    exact hle
  | cons t ts ih =>
    intro e hle s hs
    have hsd : detSubmissionTrace (t :: ts) =
        Ev.speechCancel :: Ev.speechSpeak t :: Ev.captionPush t ::
          detSubmissionTrace ts := by
      simp [detSubmissionTrace, speakDetEvs]
    rw [hsd] at hs
    rw [List.scanl_cons] at hs
    have h1 : applyEv e Ev.speechCancel = [] := rfl
    rw [h1, List.scanl_cons] at hs
    have h2 : applyEv [] (Ev.speechSpeak t) = [t] := rfl
    rw [h2, List.scanl_cons] at hs
    have h3 : applyEv [t] (Ev.captionPush t) = [t] := rfl
    rw [h3] at hs
    rcases List.mem_cons.mp hs with rfl | hs
    · exact hle
    rcases List.mem_cons.mp hs with rfl | hs
    · simp
    rcases List.mem_cons.mp hs with rfl | hs
    · simp
    exact ih [t] (by simp) s hs

/-- C4: a detection announcement submission runs `cancel` then `speak`, so
submitting request B while A is playing leaves exactly B active; along any
sequence of such submissions the engine's queue never holds more than one
utterance at any intermediate moment (no backlog accumulates). -/
theorem c4_speech_preemptive (e : SpeechEngine) (A B : String)
    (texts : List String) (hle : e.length ≤ 1) :
    applyEvs [A] (speakDetEvs HearingMode.normal true B) = [B] ∧
    applyEvs e [Ev.speechCancel] = [] ∧
    ∀ s ∈ List.scanl applyEv e (detSubmissionTrace texts), s.length ≤ 1 := by
  refine ⟨rfl, rfl, ?_⟩
  exact speech_at_most_one texts e hle

/-- Witness for C4: submitting `b` while `a` plays leaves exactly `b` active,
and the engine holds at most one utterance at a sampled moment. -/
theorem c4_witness :
    applyEvs ["a"] (speakDetEvs HearingMode.normal true "b") = ["b"] ∧
    (["a"] : SpeechEngine).length ≤ 1 := by
  have h := c4_speech_preemptive ["a"] "a" "b" ["b"] (by decide)
  exact ⟨h.1, h.2.2 ["a"] (by decide)⟩

theorem asrOnResult_eq (st : AsrPipeline) (frags : List AsrFragment) :
    asrOnResult st frags =
      if normalizedOf frags = "" ∨ normalizedOf frags = st.lastAsrText then st
      else { st with lastAsrText := normalizedOf frags,
                     pending := some (normalizedOf frags) } := by
  rw [asrOnResult, normalizedOf]
  by_cases h0 : jsTrim (String.join ((frags.filter (fun f => f.isFinal)).map
      (fun f => f.transcript))) = ""
  · rw [if_pos h0, h0]
    have hce : asrClean "" = "" := rfl
    rw [hce]
    simp
  · rw [if_neg h0]
    by_cases h1 : asrClean (jsTrim (String.join ((frags.filter (fun f => f.isFinal)).map
        (fun f => f.transcript)))) = ""
    · simp [h1]
    · rw [if_neg h1]
      by_cases h2 : asrClean (jsTrim (String.join ((frags.filter (fun f => f.isFinal)).map
          (fun f => f.transcript)))) = st.lastAsrText
      · simp [h2]
      · simp [h1, h2]

theorem normalizedOf_filter (frags : List AsrFragment) :
    normalizedOf (frags.filter (fun f => f.isFinal)) = normalizedOf frags := by
  rw [normalizedOf, normalizedOf, List.filter_filter]
  simp

/-- C5 (amended): per recognition event the pipeline uses only final
fragments, trims and strips meaningless characters, and discards the event
when nothing remains or the text equals the most recent accepted text;
otherwise it records the text and re-arms the debounce timer with it,
replacing any pending emission.  Two consecutive events with the same
normalized text therefore yield exactly one caption emission. -/
theorem c5_transcription_normalize_dedup_debounce (st : AsrPipeline)
    (frags : List AsrFragment) :
    asrOnResult st frags = asrOnResult st (frags.filter (fun f => f.isFinal)) ∧
    (normalizedOf frags = "" → asrOnResult st frags = st) ∧
    (normalizedOf frags = st.lastAsrText → asrOnResult st frags = st) ∧
    (normalizedOf frags ≠ "" → normalizedOf frags ≠ st.lastAsrText →
      asrOnResult st frags =
        { st with lastAsrText := normalizedOf frags,
                  pending := some (normalizedOf frags) } ∧
      asrOnResult (asrOnResult st frags) frags = asrOnResult st frags ∧
      (asrFire (asrOnResult st frags)).hearingCaptions =
        (normalizedOf frags :: st.hearingCaptions).take 6 ∧
      (asrFire (asrOnResult st frags)).pending = none) := by
  refine ⟨?_, ?_, ?_, ?_⟩
  · rw [asrOnResult_eq, asrOnResult_eq, normalizedOf_filter]
  · intro h0
    rw [asrOnResult_eq, if_pos (Or.inl h0)]
  · intro h0
    rw [asrOnResult_eq, if_pos (Or.inr h0)]
  · intro h0 h1
    have hres : asrOnResult st frags =
        { st with lastAsrText := normalizedOf frags,
                  pending := some (normalizedOf frags) } := by
      rw [asrOnResult_eq, if_neg]
      push_neg
      exact ⟨h0, h1⟩
    refine ⟨hres, ?_, ?_, ?_⟩
    · rw [hres, asrOnResult_eq]
      rw [if_pos (Or.inr rfl)]
    · rw [hres, asrFire]
    · rw [hres, asrFire]

/-- Witness for the amended C5: a passing event records its normalized text
and arms the debounce, and the fired timer leaves no pending emission. -/
theorem c5_amended_witness :
    asrOnResult asrInit [⟨"hello world", true⟩, ⟨"zzz", false⟩] =
      { asrInit with
          lastAsrText := normalizedOf [⟨"hello world", true⟩, ⟨"zzz", false⟩],
          pending := some (normalizedOf [⟨"hello world", true⟩, ⟨"zzz", false⟩]) } ∧
    (asrFire (asrOnResult asrInit [⟨"hello world", true⟩, ⟨"zzz", false⟩])).pending =
      none := by
  have h := c5_transcription_normalize_dedup_debounce asrInit
    [⟨"hello world", true⟩, ⟨"zzz", false⟩]
  have h4 := h.2.2.2 (by decide) (by decide)
  exact ⟨h4.1, h4.2.2.2⟩

/-- C5 counterexample: the code dedups against the last ACCEPTED text
(`lastAsrTextRef`, updated when an event passes the filter), not against the
last EMITTED caption as the claim states.  After emitting `z` then `a`, then
accepting `b` (still pending) and receiving `a` again, the code re-emits `a`
while dedup-on-emitted would have discarded the repeat and emitted the
pending `b`. -/
theorem c5_counterexample :
    (asrRun asrInit [AsrAction.result [⟨"z", true⟩], AsrAction.fire,
       AsrAction.result [⟨"a", true⟩], AsrAction.fire,
       AsrAction.result [⟨"b", true⟩], AsrAction.result [⟨"a", true⟩],
       AsrAction.fire]).hearingCaptions = ["a", "a", "z"] ∧
    (specAsrRun specAsrInit [AsrAction.result [⟨"z", true⟩], AsrAction.fire,
       AsrAction.result [⟨"a", true⟩], AsrAction.fire,
       AsrAction.result [⟨"b", true⟩], AsrAction.result [⟨"a", true⟩],
       AsrAction.fire]).captions = ["b", "a", "z"] := by
  constructor <;> rfl

/-- C6: when a session ends on its own, a new one is opened exactly when the
should-be-listening flag (`asrRestartRef`) is up (given an available
recognition API); switching hearing back to `normal` clears that flag, stops
and drops the session, clears the transcription captions and resets the
dedup text and the debounce timer — and afterwards a session end triggers no
restart. -/
theorem c6_restart_iff_flag (sr : Bool) (st : AsrPipeline) :
    (asrOnEnd sr st).recognition = (sr && st.asrRestart) ∧
    hearingToNormal st =
      { recognition := false, asrRestart := false, lastAsrText := "",
        pending := none, hearingCaptions := [] } ∧
    (asrOnEnd sr (hearingToNormal st)).recognition = false := by
  refine ⟨?_, rfl, ?_⟩
  · cases sr <;> cases hst : st.asrRestart <;>
      simp [asrOnEnd, startASR, hst]
  · cases sr <;> simp [asrOnEnd, startASR, hearingToNormal]

/-- C7 (code bug): the narration completion callbacks capture `readerActive`
by value from the render in which `startReader` was invoked — where it is
still `false` — so after item 0 completes the `onend` guard bails out and the
next item is never spoken, with or without looping.  Had the guards seen the
live (true) flag, the same chain would speak `person`, pause 250 ms (the
normal-speed profile), then speak `book`, as the claim describes. -/
theorem c7_stale_reader_flag :
    startReaderRun 10 false false (speedProfile ReaderSpeed.normal).pauseMs
      ["person", "book"] = [NarrEv.speak "person"] ∧
    startReaderRun 10 false true (speedProfile ReaderSpeed.normal).pauseMs
      ["person", "book"] = [NarrEv.speak "person"] ∧
    startReaderRun 4 true false (speedProfile ReaderSpeed.normal).pauseMs
      ["person", "book"] =
      [NarrEv.speak "person", NarrEv.pause 250, NarrEv.speak "book",
       NarrEv.pause 250] ∧
    startReaderRun 2 true true (speedProfile ReaderSpeed.normal).pauseMs
      ["person", "book"] =
      [NarrEv.speak "person", NarrEv.pause 250, NarrEv.speak "book",
       NarrEv.pause 250, NarrEv.speak "person", NarrEv.pause 250] ∧
    speedProfile ReaderSpeed.normal = ⟨100, 250⟩ := by
  refine ⟨rfl, rfl, rfl, rfl, rfl⟩

/-- C8: a detector result arriving after the running flag has been cleared is
discarded whole by the line-180 guard: the state (presence set included) is
untouched and no effect — no render, no caption, no speech, no next frame —
is emitted; the stale return is not an error. -/
theorem c8_stale_result_discarded (h : HearingMode) (ok : Bool) (st : AppState)
    (preds : List Prediction) (hstopped : st.isDetectionRunning = false) :
    detectContinuation h ok st (Except.ok preds) = (st, []) := by
  simp [detectContinuation, hstopped]

/-- Concrete stopped-mid-flight state for the C8 witness. -/
def staleState : AppState :=
  { isDetectionActive := false, isDetectionRunning := false,
    previousObjects := ["person"], spokenOnce := ["person"],
    detectedObjects := [("person", 80)], detCaptions := ["Detected person"] }

/-- Witness for C8 at a concrete stopped state and in-flight result. -/
theorem c8_witness :
    detectContinuation HearingMode.normal true staleState
      (Except.ok [⟨"book", 70⟩]) = (staleState, []) :=
  c8_stale_result_discarded HearingMode.normal true staleState
    [⟨"book", 70⟩] rfl

/-- C9: when the detector throws, the catch block stops the loop (running
flag cleared, no `scheduleNext` in the trace, hence no retry) and clears all
derived display state — boxes (canvas cleared, detected list emptied),
detection captions, and both tracking sets — so toggling detection back on
starts from an empty presence set. -/
theorem c9_detector_failure_stops_and_clears (h : HearingMode) (ok : Bool)
    (st : AppState) :
    detectContinuation h ok st (Except.error ()) =
      ({ st with isDetectionActive := false, isDetectionRunning := false,
                 previousObjects := [], spokenOnce := [], detectedObjects := [],
                 detCaptions := [] },
       [Ev.speechCancel, Ev.canvasClear]) ∧
    Ev.scheduleNext ∉ (detectContinuation h ok st (Except.error ())).2 := by
  refine ⟨rfl, ?_⟩
  simp [detectContinuation, stopDetection]

/-- C10: provided the spoken-once set tracks the previous presence set
member-for-member, one completed cycle restores the invariant with both sets
equal to the classes present in that frame; stopping detection empties both;
and the cycle's emitted effects (announcement decisions included) are
independent of the spoken-once set — the decision reads only the previous
presence set. -/
theorem c10_spoken_tracks_presence (h : HearingMode) (ok : Bool) (st : AppState)
    (preds : List Prediction) (s2 : JSet)
    (hinv : sameMembers st.spokenOnce st.previousObjects = true) :
    sameMembers (detectCycle h ok st preds).1.spokenOnce
      (detectCycle h ok st preds).1.previousObjects = true ∧
    sameMembers (detectCycle h ok st preds).1.spokenOnce (presentOf preds) = true ∧
    (stopDetection st).1.spokenOnce = [] ∧
    (stopDetection st).1.previousObjects = [] ∧
    (detectCycle h ok { st with spokenOnce := s2 } preds).2 =
      (detectCycle h ok st preds).2 := by
  have hmain : ∀ c, c ∈ (detectCycle h ok st preds).1.spokenOnce ↔
      c ∈ presentOf preds := by
    intro c
    rw [detectCycle_spoken, mem_foldl_jsetDelete, mem_foldl_jsetAdd,
      mem_goneOf, mem_newOnesOf]
    have hc := (sameMembers_iff.mp hinv) c
    by_cases hp : c ∈ st.previousObjects <;>
      by_cases hq : c ∈ presentOf preds <;> simp [hc, hp, hq]
  refine ⟨?_, sameMembers_iff.mpr hmain, rfl, rfl, ?_⟩
  · rw [detectCycle_prev]
    exact sameMembers_iff.mpr hmain
  · rw [detectCycle_snd, detectCycle_snd]

/-- Witness for C10 starting from the empty (post-toggle-on) state. -/
theorem c10_witness :
    sameMembers (detectCycle HearingMode.normal true initState
      [⟨"person", 80⟩]).1.spokenOnce (presentOf [⟨"person", 80⟩]) = true ∧
    (stopDetection initState).1.spokenOnce = [] := by
  have h := c10_spoken_tracks_presence HearingMode.normal true initState
    [⟨"person", 80⟩] ["x"] (by decide)
  exact ⟨h.2.1, h.2.2.1⟩
